import Mathlib

/-!
Verification of the nettfiske domain risk-scoring pipeline (src/main.rs).

Domains are modelled as lists of characters. The two external collaborators
are parameters of the pipeline functions: the idna punycode decoder
(a function to Option, where none is a decode failure, which the source
unwraps) and the public-suffix resolver (some root exactly when
parse_domain succeeds and root() is present).
-/

namespace Nettfiske

set_option maxRecDepth 200000

/-- Rust str::starts_with: pat is an initial run of s. -/
def leadsWith : List Char → List Char → Bool
  | [], _ => true
  | _ :: _, [] => false
  | p :: ps, c :: cs => p == c && leadsWith ps cs

/-- Rust str::contains for a string pattern: some contiguous run of s equals pat. -/
def containsStr (s pat : List Char) : Bool :=
  leadsWith pat s ||
    match s with
    | [] => false
    | _ :: rest => containsStr rest pat

/-- Worker for replaceAll, recursing on fuel so that it is structural;
fuel is always at least the length of the string. -/
def replaceAllAux (pat rep : List Char) : Nat → List Char → List Char
  | _, [] => []
  | 0, s => s
  | fuel + 1, c :: rest =>
    if pat ≠ [] ∧ leadsWith pat (c :: rest) then
      rep ++ replaceAllAux pat rep fuel ((c :: rest).drop pat.length)
    else
      c :: replaceAllAux pat rep fuel rest

/-- Rust str::replace: replace the non-overlapping occurrences of pat,
scanning left to right. Every call site in the program passes a nonempty
pattern. -/
def replaceAll (pat rep s : List Char) : List Char :=
  replaceAllAux pat rep s.length s

/-- Worker for matchesCount, recursing on fuel so that it is structural. -/
def matchesCountAux (pat : List Char) : Nat → List Char → Nat
  | _, [] => 0
  | 0, _ => 0
  | fuel + 1, c :: rest =>
    if pat ≠ [] ∧ leadsWith pat (c :: rest) then
      1 + matchesCountAux pat fuel ((c :: rest).drop pat.length)
    else
      matchesCountAux pat fuel rest

/-- Rust str::matches(pat).count(): the number of non-overlapping
occurrences of pat, scanning left to right. -/
def matchesCount (pat s : List Char) : Nat :=
  matchesCountAux pat s.length s

/-- Rust str::split on the dot character, collected into a vector of labels. -/
def splitOnDot : List Char → List (List Char)
  | [] => [[]]
  | c :: rest =>
    if c = '.' then [] :: splitOnDot rest
    else
      match splitOnDot rest with
      | [] => [[c]]
      | l :: ls => (c :: l) :: ls

/-- Vec::join with the dot separator. -/
def joinDot : List (List Char) → List Char
  | [] => []
  | [l] => l
  | l :: ls => l ++ '.' :: joinDot ls

/-- Rust char::to_ascii_lowercase. -/
def toAsciiLower (c : Char) : Char :=
  if 'A' ≤ c ∧ c ≤ 'Z' then Char.ofNat (c.toNat + 32) else c

/-- Rust str::eq_ignore_ascii_case. -/
def eqIgnoreAsciiCase (a b : List Char) : Bool :=
  a.map toAsciiLower == b.map toAsciiLower

/-- Read the strsim distance matrix: entry flat_index(i, j, width) of the
flat array is entry j of row i here. -/
def mget (m : List (List Nat)) (i j : Nat) : Nat := (m.getD i []).getD j 0

/-- Write the strsim distance matrix at flat_index(i, j, width). -/
def mset (m : List (List Nat)) (i j : Nat) (v : Nat) : List (List Nat) :=
  m.set i ((m.getD i []).set j v)

/-- The initialization of the strsim generic_damerau_levenshtein distance
matrix: (aLen+2) x (bLen+2) entries, border rows and columns holding the
maximal distance and the base row and column holding the trivial distances. -/
def dlInit (aLen bLen maxDistance : Nat) : List (List Nat) :=
  let m0 := List.replicate (aLen + 2) (List.replicate (bLen + 2) 0)
  let m1 := mset m0 0 0 maxDistance
  let m2 := (List.range (aLen + 1)).foldl
    (fun m i => mset (mset m (i + 1) 0 maxDistance) (i + 1) 1 i) m1
  (List.range (bLen + 1)).foldl
    (fun m j => mset (mset m 0 (j + 1) maxDistance) 1 (j + 1) j) m2

/-- The inner loop body of strsim generic_damerau_levenshtein: for row i and
column j, take the minimum of insertion, deletion, substitution and
transposition costs, where k is the last row whose character of a equals the
current character of b (via the character dictionary elems) and db is the
last column of this row where the characters matched. -/
def dlInner (aCh bCh : List Char) (i : Nat) (elems : List (Char × Nat))
    (st : List (List Nat) × Nat) (j : Nat) : List (List Nat) × Nat :=
  let m := st.1
  let db := st.2
  let k := ((elems.find? (fun p => p.1 == bCh.getD (j - 1) ' ')).map
    (fun p => p.2)).getD 0
  let insertionCost := mget m i (j + 1) + 1
  let deletionCost := mget m (i + 1) j + 1
  let transpositionCost := mget m k db + (i - k - 1) + 1 + (j - db - 1)
  let subCost := mget m i j + 1
  let eqc := aCh.getD (i - 1) ' ' == bCh.getD (j - 1) ' '
  let db2 := if eqc then j else db
  let substitutionCost := if eqc then subCost - 1 else subCost
  (mset m (i + 1) (j + 1)
    (min (min insertionCost deletionCost) (min substitutionCost transpositionCost)),
    db2)

/-- The outer loop body of strsim generic_damerau_levenshtein: run the inner
loop over the columns, then record row i as the latest row for the current
character of a (prepending shadows older entries, as HashMap::insert does). -/
def dlOuter (aCh bCh : List Char) (bLen : Nat)
    (st : List (List Nat) × List (Char × Nat)) (i : Nat) :
    List (List Nat) × List (Char × Nat) :=
  let m2 := ((List.range' 1 bLen).foldl (dlInner aCh bCh i st.2) (st.1, 0)).1
  (m2, (aCh.getD (i - 1) ' ', i) :: st.2)

/-- strsim damerau_levenshtein on the character sequences of the two strings:
the unrestricted Damerau-Levenshtein distance (insertions, deletions,
substitutions and transpositions of adjacent characters), computed by the
dictionary-based dynamic program of strsim generic_damerau_levenshtein. -/
def damerau_levenshtein (a b : List Char) : Nat :=
  let aLen := a.length
  let bLen := b.length
  if aLen = 0 then bLen
  else if bLen = 0 then aLen
  else
    let m0 := dlInit aLen bLen (aLen + bLen)
    let m := ((List.range' 1 aLen).foldl (dlOuter a b bLen) (m0, [])).1
    mget m (aLen + 1) (bLen + 1)

/-- main.rs deeply_nested: three or more dot-separated labels score three
points per label, otherwise zero. -/
def deeply_nested (domain : List Char) : Nat :=
  let v := splitOnDot domain
  if v.length ≥ 3 then v.length * 3 else 0

/-- main.rs domain_keywords: ten times the weight when name contains key. -/
def domain_keywords (name key : List Char) (weight : Nat) : Nat :=
  if containsStr name key then 10 * weight else 0

/-- main.rs domain_keywords_exact_match: ten times the weight when name
equals key up to ASCII case. -/
def domain_keywords_exact_match (name key : List Char) (weight : Nat) : Nat :=
  if eqIgnoreAsciiCase name key then 10 * weight else 0

/-- main.rs calc_string_edit_distance: forty points when the
Damerau-Levenshtein distance is exactly one, zero otherwise. -/
def calc_string_edit_distance (name key : List Char) : Nat :=
  if damerau_levenshtein name key = 1 then 40 else 0

/-- The punycode label marker xn--. -/
def xnMarker : List Char := "xn--".toList

/-- The wildcard marker of raw certificate domains. -/
def starDot : List Char := "*.".toList

/-- The for loop of main.rs punycode: decode every label that starts with
xn-- via the external decoder, after removing the occurrences of xn-- from
it; other labels pass through; a none of the decoder makes the whole result
none, modelling the unwrap panic of the source. -/
def decodeLabels (dec : List Char → Option (List Char)) :
    List (List Char) → Option (List (List Char))
  | [] => some []
  | word :: rest => do
    let decoded ←
      if leadsWith xnMarker word then dec (replaceAll xnMarker [] word)
      else some word
    let others ← decodeLabels dec rest
    return decoded :: others

/-- main.rs punycode: split the domain on dots, decode the labels, rejoin
with dots. -/
def punycode (dec : List Char → Option (List Char)) (domain : List Char) :
    Option (List Char) :=
  (decodeLabels dec (splitOnDot domain)).map joinDot

/-- Wildcard handling at the top of the domain loop in main: when the
domain starts with the wildcard marker, Rust str::replace removes every
occurrence of it. -/
def stripWildcard (domain : List Char) : List Char :=
  if leadsWith starDot domain then replaceAll starDot [] domain else domain

/-- The normalization main performs before scoring: wildcard stripping
followed by punycode decoding of the labels. -/
def normalizeDomain (dec : List Char → Option (List Char))
    (domain : List Char) : Option (List Char) :=
  punycode dec (stripWildcard domain)

/-- One iteration of the keyword loop in main: root-label containment,
root-label fuzzy match, subdomain-label containment, subdomain-label
fuzzy match. -/
def keywordContribution (rootLabel subLabel key : List Char) : Nat :=
  domain_keywords rootLabel key 4 + calc_string_edit_distance rootLabel key
    + domain_keywords subLabel key 6 + calc_string_edit_distance subLabel key

/-- The keyword loop of main accumulated over the whole keyword set. -/
def keywordScore (rootLabel subLabel : List Char)
    (keywords : List (List Char)) : Nat :=
  (keywords.map (keywordContribution rootLabel subLabel)).sum

/-- The TLD-spoof token list of main. -/
def tldl : List (List Char) :=
  ["com".toList, "net".toList, "-net".toList, "-com".toList,
    "net-".toList, "com-".toList]

/-- The TLD-spoof loop of main over the first label of the subdomain. -/
def tldScore (subLabel : List Char) : Nat :=
  (tldl.map (fun key => domain_keywords_exact_match subLabel key 8)).sum

/-- The root/subdomain heuristics of main, reached when the suffix resolver
yields a registrable root: split the root on dots, remove the root substring
from the normalized domain to obtain the subdomain, then run the keyword and
TLD loops on the first labels of both. -/
def decomposedScore (registrable domainStr : List Char)
    (keywords : List (List Char)) : Nat :=
  let domainName := splitOnDot registrable
  let subDomain := replaceAll registrable [] domainStr
  let subDomainName := splitOnDot subDomain
  keywordScore (domainName.headD []) (subDomainName.headD []) keywords
    + tldScore (subDomainName.headD [])

/-- The per-domain body of the stream loop in main: strip the wildcard,
decode punycode, score the xn-- occurrences, the root/subdomain heuristics
when the resolver yields a root, and the nesting depth. The result carries
the total score, the normalized domain and the wildcard-stripped original;
none models the panic on a punycode decode failure. -/
def processDomain (dec : List Char → Option (List Char))
    (resolver : List Char → Option (List Char))
    (keywords : List (List Char)) (domain0 : List Char) :
    Option (Nat × List Char × List Char) := do
  let domain := stripWildcard domain0
  let domainStr ← punycode dec domain
  let base := matchesCount xnMarker domain * 5
  let rootScore :=
    match resolver domainStr with
    | some registrable => decomposedScore registrable domainStr keywords
    | none => 0
  let score := base + rootScore + deeply_nested domainStr
  return (score, domainStr, domain)

/-- The severity presentation tiers of main.rs report: high is the red
branch, medium the magenta branch, lowSuspicious the yellow branch. -/
inductive Tier where
  | high
  | medium
  | lowSuspicious
deriving DecidableEq, Repr

/-- Console tier selection in main.rs report, highest threshold first. -/
def reportTier (score : Nat) : Option Tier :=
  if score ≥ 76 then some Tier.high
  else if score ≥ 68 then some Tier.medium
  else if score ≥ 56 then some Tier.lowSuspicious
  else none

/-- The persisted log entry emitted by main.rs report: present exactly for
scores of at least 56, annotated with the original form when it still
contains the xn-- marker. -/
def logEntry (score : Nat) (domain domainOriginal : List Char) :
    Option (List Char) :=
  if score ≥ 56 then
    if matchesCount xnMarker domainOriginal > 0 then
      some (domain ++ " - (Punycode: ".toList ++ domainOriginal ++ ")".toList)
    else some domain
  else none

/-- Modelled from the spec: the punycode normalizer with the recoverable
decode failure the specification prescribes (section 7: decode failure on a
label falls back to leaving the label unchanged instead of aborting). This
definition exists only to be compared with the punycode function above,
which the source implements with an unwrap. -/
def punycodeRecovering (dec : List Char → Option (List Char))
    (domain : List Char) : List Char :=
  joinDot ((splitOnDot domain).map (fun word =>
    if leadsWith xnMarker word then (dec (replaceAll xnMarker [] word)).getD word
    else word))

/-- Decoder used by the punycode trace of the idempotence counterexample: it
maps the residue xn--- to xn-- and is the identity elsewhere. On the two
residues that trace actually queries it agrees with RFC 3492 (idna)
decoding: in xn--- everything before the last delimiter is the basic
section and the extended part is empty, so it decodes to the four
characters xn--; the empty residue decodes to the empty label. -/
def traceDecoder (w : List Char) : Option (List Char) :=
  if w = "xn---".toList then some "xn--".toList else some w

/-! Infrastructure lemmas about the string primitives. -/

theorem leadsWith_length_le : ∀ {p s : List Char}, leadsWith p s = true → p.length ≤ s.length := by
  intro p
  induction p with
  | nil => intro s h; simp
  | cons a ps ih =>
    intro s h
    cases s with
    | nil => simp [leadsWith] at h
    | cons c cs =>
      simp only [leadsWith, Bool.and_eq_true, beq_iff_eq] at h
      simpa using ih h.2

theorem leadsWith_append : ∀ {p s : List Char}, leadsWith p s = true → s = p ++ s.drop p.length := by
  intro p
  induction p with
  | nil => intro s h; simp
  | cons a ps ih =>
    intro s h
    cases s with
    | nil => simp [leadsWith] at h
    | cons c cs =>
      simp only [leadsWith, Bool.and_eq_true, beq_iff_eq] at h
      simp only [List.cons_append, List.length_cons, List.drop_succ_cons]
      rw [h.1]
      exact congrArg (c :: ·) (ih h.2)

theorem leadsWith_refl : ∀ p : List Char, leadsWith p p = true := by
  intro p
  induction p with
  | nil => rfl
  | cons a ps ih => simp [leadsWith, ih]

theorem leadsWith_append_self : ∀ (p t : List Char), leadsWith p (p ++ t) = true := by
  intro p t
  induction p with
  | nil => rfl
  | cons a ps ih => simp [leadsWith, ih]

theorem leadsWith_nil : ∀ {p : List Char}, p ≠ [] → leadsWith p [] = false := by
  intro p hp
  cases p with
  | nil => exact absurd rfl hp
  | cons a ps => rfl

theorem replaceAllAux_congr (pat rep : List Char) :
    ∀ f1 {f2 : Nat} {s : List Char}, s.length ≤ f1 → s.length ≤ f2 →
      replaceAllAux pat rep f1 s = replaceAllAux pat rep f2 s := by
  intro f1
  induction f1 with
  | zero =>
    intro f2 s h1 h2
    have hs : s = [] := List.eq_nil_of_length_eq_zero (Nat.le_zero.mp h1)
    subst hs
    cases f2 <;> rfl
  | succ f ih =>
    intro f2 s h1 h2
    cases s with
    | nil => cases f2 <;> rfl
    | cons c rest =>
      cases f2 with
      | zero => simp at h2
      | succ f2 =>
        simp only [replaceAllAux]
        by_cases hc : pat ≠ [] ∧ leadsWith pat (c :: rest) = true
        · rw [if_pos hc, if_pos hc]
          congr 1
          have hp : 0 < pat.length := List.length_pos.mpr hc.1
          apply ih <;> · simp only [List.length_drop, List.length_cons] at *; omega
        · rw [if_neg hc, if_neg hc]
          simp only [List.length_cons] at h1 h2
          have hr1 : rest.length ≤ f := by omega
          have hr2 : rest.length ≤ f2 := by omega
          exact congrArg (c :: ·) (ih hr1 hr2)

theorem replaceAll_nil (pat rep : List Char) : replaceAll pat rep [] = [] := by
  unfold replaceAll replaceAllAux
  rfl

theorem replaceAll_pos {pat : List Char} (rep : List Char) {s : List Char}
    (hp : pat ≠ []) (h : leadsWith pat s = true) :
    replaceAll pat rep s = rep ++ replaceAll pat rep (s.drop pat.length) := by
  cases s with
  | nil => rw [leadsWith_nil hp] at h; exact absurd h (by simp)
  | cons c rest =>
    show replaceAllAux pat rep (rest.length + 1) (c :: rest) = _
    rw [replaceAllAux, if_pos ⟨hp, h⟩]
    congr 1
    apply replaceAllAux_congr
    · have hpl : 0 < pat.length := List.length_pos.mpr hp
      simp only [List.length_drop, List.length_cons]
      omega
    · exact Nat.le_refl _

theorem replaceAll_neg {pat : List Char} (rep : List Char) {c : Char} {rest : List Char}
    (h : ¬(pat ≠ [] ∧ leadsWith pat (c :: rest) = true)) :
    replaceAll pat rep (c :: rest) = c :: replaceAll pat rep rest := by
  show replaceAllAux pat rep (rest.length + 1) (c :: rest) = _
  rw [replaceAllAux, if_neg h]
  rfl

theorem replaceAll_of_not_contains {pat : List Char} (rep : List Char) :
    ∀ {s : List Char}, containsStr s pat = false → replaceAll pat rep s = s := by
  intro s
  induction s with
  | nil => intro h; exact replaceAll_nil pat rep
  | cons c rest ih =>
    intro h
    rw [containsStr] at h
    simp only [Bool.or_eq_false_iff] at h
    rw [replaceAll_neg rep (fun hc => by rw [hc.2] at h; exact absurd h.1 (by simp))]
    rw [ih h.2]

theorem replaceAll_self_nil {pat : List Char} (hp : pat ≠ []) :
    replaceAll pat [] pat = [] := by
  rw [replaceAll_pos [] hp (leadsWith_refl pat), List.drop_length, replaceAll_nil]
  rfl

theorem matchesCountAux_congr (pat : List Char) :
    ∀ f1 {f2 : Nat} {s : List Char}, s.length ≤ f1 → s.length ≤ f2 →
      matchesCountAux pat f1 s = matchesCountAux pat f2 s := by
  intro f1
  induction f1 with
  | zero =>
    intro f2 s h1 h2
    have hs : s = [] := List.eq_nil_of_length_eq_zero (Nat.le_zero.mp h1)
    subst hs
    cases f2 <;> rfl
  | succ f ih =>
    intro f2 s h1 h2
    cases s with
    | nil => cases f2 <;> rfl
    | cons c rest =>
      cases f2 with
      | zero => simp at h2
      | succ f2 =>
        simp only [matchesCountAux]
        by_cases hc : pat ≠ [] ∧ leadsWith pat (c :: rest) = true
        · rw [if_pos hc, if_pos hc]
          congr 1
          have hp : 0 < pat.length := List.length_pos.mpr hc.1
          apply ih <;> · simp only [List.length_drop, List.length_cons] at *; omega
        · rw [if_neg hc, if_neg hc]
          simp only [List.length_cons] at h1 h2
          have hr1 : rest.length ≤ f := by omega
          have hr2 : rest.length ≤ f2 := by omega
          exact ih hr1 hr2

theorem matchesCount_pos {pat : List Char} {s : List Char}
    (hp : pat ≠ []) (h : leadsWith pat s = true) :
    matchesCount pat s = 1 + matchesCount pat (s.drop pat.length) := by
  cases s with
  | nil => rw [leadsWith_nil hp] at h; exact absurd h (by simp)
  | cons c rest =>
    show matchesCountAux pat (rest.length + 1) (c :: rest) = _
    rw [matchesCountAux, if_pos ⟨hp, h⟩]
    congr 1
    apply matchesCountAux_congr
    · have hpl : 0 < pat.length := List.length_pos.mpr hp
      simp only [List.length_drop, List.length_cons]
      omega
    · exact Nat.le_refl _

theorem matchesCount_neg {pat : List Char} {c : Char} {rest : List Char}
    (h : ¬(pat ≠ [] ∧ leadsWith pat (c :: rest) = true)) :
    matchesCount pat (c :: rest) = matchesCount pat rest := by
  show matchesCountAux pat (rest.length + 1) (c :: rest) = _
  rw [matchesCountAux, if_neg h]
  rfl

theorem matchesCount_pos_iff {pat : List Char} (hp : pat ≠ []) :
    ∀ s : List Char, 0 < matchesCount pat s ↔ containsStr s pat = true := by
  intro s
  induction s with
  | nil =>
    constructor
    · intro h; exact absurd h (by simp [matchesCount, matchesCountAux])
    · intro h; rw [containsStr, leadsWith_nil hp] at h; exact absurd h (by simp)
  | cons c rest ih =>
    by_cases hl : leadsWith pat (c :: rest) = true
    · rw [matchesCount_pos hp hl, containsStr, hl]
      simp
    · rw [matchesCount_neg (fun hc => hl hc.2), containsStr]
      simp only [Bool.or_eq_true]
      rw [Bool.eq_false_iff.mpr hl] at *
      simpa using ih

/-! Infrastructure lemmas about splitting and joining on dots. -/

theorem splitOnDot_ne_nil : ∀ s : List Char, splitOnDot s ≠ [] := by
  intro s
  cases s with
  | nil => simp [splitOnDot]
  | cons c rest =>
    rw [splitOnDot]
    by_cases hc : c = '.'
    · simp [hc]
    · simp only [if_neg hc]
      cases splitOnDot rest <;> simp

theorem mem_splitOnDot_not_dot : ∀ (s : List Char) (w : List Char), w ∈ splitOnDot s → '.' ∉ w := by
  intro s
  induction s with
  | nil =>
    intro w hw
    simp only [splitOnDot, List.mem_singleton] at hw
    subst hw
    simp
  | cons c rest ih =>
    intro w hw
    rw [splitOnDot] at hw
    by_cases hc : c = '.'
    · rw [if_pos hc] at hw
      rcases List.mem_cons.mp hw with h | h
      · subst h; simp
      · exact ih w h
    · rw [if_neg hc] at hw
      cases hsp : splitOnDot rest with
      | nil => exact absurd hsp (splitOnDot_ne_nil rest)
      | cons l ls =>
        rw [hsp] at hw
        rcases List.mem_cons.mp hw with h | h
        · subst h
          intro hmem
          rcases List.mem_cons.mp hmem with h2 | h2
          · exact hc h2.symm
          · exact ih l (hsp ▸ List.mem_cons_self l ls) h2
        · exact ih w (hsp ▸ List.mem_cons_of_mem l h)

theorem joinDot_cons {l : List Char} {ls : List (List Char)} (h : ls ≠ []) :
    joinDot (l :: ls) = l ++ '.' :: joinDot ls := by
  cases ls with
  | nil => exact absurd rfl h
  | cons x xs => rfl

theorem joinDot_splitOnDot : ∀ s : List Char, joinDot (splitOnDot s) = s := by
  intro s
  induction s with
  | nil => rfl
  | cons c rest ih =>
    rw [splitOnDot]
    by_cases hc : c = '.'
    · rw [if_pos hc, joinDot_cons (splitOnDot_ne_nil rest), ih, hc]
      rfl
    · rw [if_neg hc]
      cases hsp : splitOnDot rest with
      | nil => exact absurd hsp (splitOnDot_ne_nil rest)
      | cons l ls =>
        rw [hsp] at ih
        cases ls with
        | nil => simp only [joinDot] at ih ⊢; rw [ih]
        | cons x xs =>
          rw [joinDot_cons (by simp), List.cons_append]
          rw [joinDot_cons (by simp)] at ih
          rw [ih]

theorem splitOnDot_single : ∀ {l : List Char}, '.' ∉ l → splitOnDot l = [l] := by
  intro l
  induction l with
  | nil => intro h; rfl
  | cons c t ih =>
    intro h
    have hc : c ≠ '.' := fun hx => h (hx ▸ List.mem_cons_self c t)
    rw [splitOnDot, if_neg (fun hx => hc hx), ih (fun hx => h (List.mem_cons_of_mem c hx))]

theorem splitOnDot_append_dot :
    ∀ {l : List Char} (t : List Char), '.' ∉ l → splitOnDot (l ++ '.' :: t) = l :: splitOnDot t := by
  intro l
  induction l with
  | nil => intro t h; simp [splitOnDot]
  | cons c ls ih =>
    intro t h
    have hc : c ≠ '.' := fun hx => h (hx ▸ List.mem_cons_self c ls)
    rw [List.cons_append, splitOnDot, if_neg (fun hx => hc hx),
      ih t (fun hx => h (List.mem_cons_of_mem c hx))]

theorem splitOnDot_joinDot :
    ∀ ls : List (List Char), ls ≠ [] → (∀ w ∈ ls, '.' ∉ w) → splitOnDot (joinDot ls) = ls := by
  intro ls
  induction ls with
  | nil => intro h; exact absurd rfl h
  | cons l rest ih =>
    intro _ hw
    cases rest with
    | nil => exact splitOnDot_single (hw l (List.mem_cons_self l []))
    | cons r rs =>
      rw [joinDot_cons (by simp), splitOnDot_append_dot _ (hw l (List.mem_cons_self l _)),
        ih (by simp) (fun w hmem => hw w (List.mem_cons_of_mem l hmem))]

/-! Infrastructure lemmas about label decoding and the pipeline. -/

theorem decodeLabels_cons (dec : List Char → Option (List Char)) (w : List Char)
    (ws : List (List Char)) :
    decodeLabels dec (w :: ws)
      = (if leadsWith xnMarker w then dec (replaceAll xnMarker [] w) else some w).bind
          (fun d => (decodeLabels dec ws).bind (fun o => some (d :: o))) := by
  by_cases hxn : leadsWith xnMarker w = true
  · rw [decodeLabels, if_pos hxn, if_pos hxn]
    rfl
  · rw [decodeLabels, if_neg hxn, if_neg hxn]
    rfl

theorem decodeLabels_forall₂ {dec : List Char → Option (List Char)} :
    ∀ {ws rs : List (List Char)}, decodeLabels dec ws = some rs →
      List.Forall₂
        (fun w r =>
          (if leadsWith xnMarker w then dec (replaceAll xnMarker [] w) else some w) = some r)
        ws rs := by
  intro ws
  induction ws with
  | nil =>
    intro rs h
    simp only [decodeLabels, Option.some.injEq] at h
    subst h
    exact List.Forall₂.nil
  | cons w ws ih =>
    intro rs h
    rw [decodeLabels_cons] at h
    cases hg : (if leadsWith xnMarker w then dec (replaceAll xnMarker [] w) else some w) with
    | none => rw [hg] at h; exact absurd h (by simp)
    | some d =>
      rw [hg] at h
      cases hr : decodeLabels dec ws with
      | none => rw [hr] at h; exact absurd h (by simp)
      | some o =>
        rw [hr] at h
        simp only [Option.bind_some, Option.bind_eq_bind, Option.some_bind,
          Option.some.injEq] at h
        subst h
        exact List.Forall₂.cons hg (ih hr)

theorem decodeLabels_dots {dec : List Char → Option (List Char)}
    (hdec : ∀ w out, dec w = some out → '.' ∉ out) :
    ∀ {ws rs : List (List Char)}, decodeLabels dec ws = some rs →
      (∀ w ∈ ws, '.' ∉ w) → ∀ r ∈ rs, '.' ∉ r := by
  intro ws
  induction ws with
  | nil =>
    intro rs h _
    simp only [decodeLabels, Option.some.injEq] at h
    subst h
    simp
  | cons w ws ih =>
    intro rs h hws r hr
    rw [decodeLabels_cons] at h
    cases hg : (if leadsWith xnMarker w then dec (replaceAll xnMarker [] w) else some w) with
    | none => rw [hg] at h; exact absurd h (by simp)
    | some d =>
      rw [hg] at h
      cases hrest : decodeLabels dec ws with
      | none => rw [hrest] at h; exact absurd h (by simp)
      | some o =>
        rw [hrest] at h
        simp only [Option.bind_some, Option.bind_eq_bind, Option.some_bind,
          Option.some.injEq] at h
        subst h
        rcases List.mem_cons.mp hr with h2 | h2
        · subst h2
          by_cases hxn : leadsWith xnMarker w = true
          · rw [if_pos hxn] at hg
            exact hdec _ r hg
          · rw [if_neg hxn] at hg
            have : w = r := Option.some.inj hg
            exact this ▸ hws w (List.mem_cons_self w ws)
        · exact ih hrest (fun x hx => hws x (List.mem_cons_of_mem w hx)) r h2

theorem decodeLabels_noxn {dec : List Char → Option (List Char)}
    (hdec : ∀ w out, dec w = some out → leadsWith xnMarker out = false) :
    ∀ {ws rs : List (List Char)}, decodeLabels dec ws = some rs →
      ∀ r ∈ rs, leadsWith xnMarker r = false := by
  intro ws
  induction ws with
  | nil =>
    intro rs h
    simp only [decodeLabels, Option.some.injEq] at h
    subst h
    simp
  | cons w ws ih =>
    intro rs h r hr
    rw [decodeLabels_cons] at h
    cases hg : (if leadsWith xnMarker w then dec (replaceAll xnMarker [] w) else some w) with
    | none => rw [hg] at h; exact absurd h (by simp)
    | some d =>
      rw [hg] at h
      cases hrest : decodeLabels dec ws with
      | none => rw [hrest] at h; exact absurd h (by simp)
      | some o =>
        rw [hrest] at h
        simp only [Option.bind_some, Option.bind_eq_bind, Option.some_bind,
          Option.some.injEq] at h
        subst h
        rcases List.mem_cons.mp hr with h2 | h2
        · subst h2
          by_cases hxn : leadsWith xnMarker w = true
          · rw [if_pos hxn] at hg
            exact hdec _ r hg
          · rw [if_neg hxn] at hg
            have : w = r := Option.some.inj hg
            exact this ▸ Bool.eq_false_iff.mpr hxn
        · exact ih hrest r h2

theorem decodeLabels_id (dec : List Char → Option (List Char)) :
    ∀ {rs : List (List Char)}, (∀ w ∈ rs, leadsWith xnMarker w = false) →
      decodeLabels dec rs = some rs := by
  intro rs
  induction rs with
  | nil => intro _; rfl
  | cons w ws ih =>
    intro h
    rw [decodeLabels, if_neg (by rw [h w (List.mem_cons_self w ws)]; simp),
      ih (fun x hx => h x (List.mem_cons_of_mem w hx))]
    rfl

theorem punycode_eq_some {dec : List Char → Option (List Char)} {d dn : List Char}
    (h : punycode dec d = some dn) :
    ∃ rs, decodeLabels dec (splitOnDot d) = some rs ∧ joinDot rs = dn := by
  unfold punycode at h
  cases hr : decodeLabels dec (splitOnDot d) with
  | none => rw [hr] at h; exact absurd h (by simp)
  | some rs =>
    rw [hr] at h
    exact ⟨rs, rfl, Option.some.inj h⟩

theorem processDomain_resolved (dec resolver : List Char → Option (List Char))
    (keywords : List (List Char)) (d dstr reg : List Char)
    (h1 : punycode dec (stripWildcard d) = some dstr)
    (h2 : resolver dstr = some reg) :
    processDomain dec resolver keywords d
      = some (matchesCount xnMarker (stripWildcard d) * 5
            + decomposedScore reg dstr keywords + deeply_nested dstr,
          dstr, stripWildcard d) := by
  unfold processDomain
  simp only [h1, h2, Option.bind_eq_bind, Option.some_bind]
  rfl

/-! Claim theorems. -/

/-- C1 (counterexample): for the raw domain secure-paypal-login.com with the
keyword set containing exactly paypal and the resolver returning the whole
domain as registrable root, the pipeline total is 40, which is below 56, so
no alert fires — refuting the claim that the total is at least 56 for every
keyword set containing paypal. -/
theorem claim_scenario1_counterexample :
    processDomain (fun w => some w) (fun _ => some "secure-paypal-login.com".toList)
      ["paypal".toList] "secure-paypal-login.com".toList
      = some (40, "secure-paypal-login.com".toList, "secure-paypal-login.com".toList)
    ∧ reportTier 40 = none
    ∧ logEntry 40 "secure-paypal-login.com".toList "secure-paypal-login.com".toList
        = none := by
  refine ⟨by decide, by decide, by decide⟩

/-- C1 (amended): for the raw domain secure-paypal-login.com with any keyword
set containing paypal and the resolver returning the whole domain as
registrable root, the root-label containment heuristic contributes its 40, so
the pipeline total is at least 40; the total reaches the 56 alert threshold
only if further keywords match. -/
theorem claim_scenario1_amended :
    ∀ (dec : List Char → Option (List Char)) (kws : List (List Char)),
      "paypal".toList ∈ kws →
      ∃ n : Nat,
        processDomain dec (fun _ => some "secure-paypal-login.com".toList) kws
          "secure-paypal-login.com".toList
          = some (n, "secure-paypal-login.com".toList, "secure-paypal-login.com".toList)
        ∧ 40 ≤ n := by
  intro dec kws hmem
  have h1 : punycode dec (stripWildcard "secure-paypal-login.com".toList)
      = some "secure-paypal-login.com".toList := rfl
  have h2 := processDomain_resolved dec (fun _ => some "secure-paypal-login.com".toList)
    kws "secure-paypal-login.com".toList "secure-paypal-login.com".toList
    "secure-paypal-login.com".toList h1 rfl
  refine ⟨_, h2, ?_⟩
  have h3 : keywordContribution "secure-paypal-login".toList [] "paypal".toList = 40 := by
    decide
  have h4 : keywordContribution "secure-paypal-login".toList [] "paypal".toList
      ≤ keywordScore "secure-paypal-login".toList [] kws := by
    apply List.single_le_sum (fun x _ => Nat.zero_le x)
    exact List.mem_map_of_mem _ hmem
  have h5 : decomposedScore "secure-paypal-login.com".toList
      "secure-paypal-login.com".toList kws
      = keywordScore "secure-paypal-login".toList [] kws + tldScore [] := rfl
  have h6 : matchesCount xnMarker (stripWildcard "secure-paypal-login.com".toList) * 5
      = 0 := by decide
  have h7 : deeply_nested "secure-paypal-login.com".toList = 0 := by decide
  rw [h6, h7, h5]
  omega

/-- C1 (witness for the amended theorem): with the keyword set consisting of
paypal alone and an arbitrary decoder, the pipeline yields some score of at
least 40 for secure-paypal-login.com. -/
theorem claim_scenario1_amended_witness :
    ∃ n : Nat,
      processDomain (fun _ => none) (fun _ => some "secure-paypal-login.com".toList)
        ["paypal".toList] "secure-paypal-login.com".toList
        = some (n, "secure-paypal-login.com".toList, "secure-paypal-login.com".toList)
      ∧ 40 ≤ n :=
  claim_scenario1_amended (fun _ => none) ["paypal".toList] (by decide)

/-- C2: when decomposition succeeds, the keyword loop adds exactly 40 per
keyword contained in the first label of the registrable root and exactly 60
per keyword contained in the first label of the subdomain (plus the fuzzy
contributions of 40 per keyword at distance one), accumulated over the whole
keyword set; and the decomposed score is this loop on the first labels plus
the TLD loop. -/
theorem claim_keyword_weights :
    (∀ (rootLabel subLabel : List Char) (kws : List (List Char)),
      keywordScore rootLabel subLabel kws
        = 40 * kws.countP (fun k => containsStr rootLabel k)
          + 40 * kws.countP (fun k => damerau_levenshtein rootLabel k == 1)
          + 60 * kws.countP (fun k => containsStr subLabel k)
          + 40 * kws.countP (fun k => damerau_levenshtein subLabel k == 1))
    ∧ (∀ (reg dstr : List Char) (kws : List (List Char)),
      decomposedScore reg dstr kws
        = keywordScore ((splitOnDot reg).headD [])
            ((splitOnDot (replaceAll reg [] dstr)).headD []) kws
          + tldScore ((splitOnDot (replaceAll reg [] dstr)).headD [])) := by
  constructor
  · intro rootLabel subLabel kws
    induction kws with
    | nil => simp [keywordScore]
    | cons k ks ih =>
      have hstep : keywordScore rootLabel subLabel (k :: ks)
          = keywordContribution rootLabel subLabel k
            + keywordScore rootLabel subLabel ks := by
        simp [keywordScore]
      rw [hstep, ih]
      simp only [List.countP_cons, beq_iff_eq]
      simp only [keywordContribution, domain_keywords, calc_string_edit_distance]
      split_ifs <;> omega
  · intro reg dstr kws
    rfl

/-- C3: the fuzzy heuristic adds exactly 40 when the Damerau-Levenshtein
distance between a label and a keyword is exactly one, and adds 0 whenever
the distance differs from one (in particular at distance zero or above one). -/
theorem claim_fuzzy_exact_distance_one :
    ∀ name key : List Char,
      (damerau_levenshtein name key = 1 → calc_string_edit_distance name key = 40)
      ∧ (damerau_levenshtein name key ≠ 1 → calc_string_edit_distance name key = 0) := by
  intro name key
  constructor
  · intro h
    simp [calc_string_edit_distance, h]
  · intro h
    simp [calc_string_edit_distance, h]

/-- C3 (witness): paypa1 is at distance one from paypal and receives 40;
pay is at distance three and receives 0. -/
theorem claim_fuzzy_exact_distance_one_witness :
    calc_string_edit_distance "paypal".toList "paypa1".toList = 40
    ∧ calc_string_edit_distance "paypal".toList "pay".toList = 0 :=
  ⟨(claim_fuzzy_exact_distance_one "paypal".toList "paypa1".toList).1 (by decide),
    (claim_fuzzy_exact_distance_one "paypal".toList "pay".toList).2 (by decide)⟩

/-- C4: the TLD-spoof heuristic adds exactly 80 for each token of
{com, net, -net, -com, net-, com-} that equals the first label of the
subdomain up to ASCII case, and 0 otherwise; the comparison is
case-insensitive, so COM matches com. -/
theorem claim_tld_spoof_match :
    (∀ name key : List Char,
      domain_keywords_exact_match name key 8
        = if eqIgnoreAsciiCase name key then 80 else 0)
    ∧ (∀ subLabel : List Char,
      tldScore subLabel = 80 * tldl.countP (fun t => eqIgnoreAsciiCase subLabel t))
    ∧ eqIgnoreAsciiCase "COM".toList "com".toList = true := by
  refine ⟨?_, ?_, by decide⟩
  · intro name key
    simp [domain_keywords_exact_match]
  · intro subLabel
    simp only [tldScore, tldl, domain_keywords_exact_match, List.map_cons, List.map_nil,
      List.sum_cons, List.sum_nil, List.countP_cons, List.countP_nil]
    split_ifs <;> omega

/-- C5: the reporter prints the high tier iff the score is at least 76, the
medium tier iff it is in [68, 76), the low-suspicious tier iff it is in
[56, 68), and nothing below 56; a log entry exists iff the score is at least
56, and it carries the punycode-original form exactly when the original
domain still contains xn--, otherwise only the normalized domain. -/
theorem claim_report_thresholds :
    ∀ (score : Nat) (domain raw : List Char),
      (reportTier score = some Tier.high ↔ 76 ≤ score)
      ∧ (reportTier score = some Tier.medium ↔ 68 ≤ score ∧ score < 76)
      ∧ (reportTier score = some Tier.lowSuspicious ↔ 56 ≤ score ∧ score < 68)
      ∧ (reportTier score = none ↔ score < 56)
      ∧ ((logEntry score domain raw).isSome = true ↔ 56 ≤ score)
      ∧ (56 ≤ score → containsStr raw xnMarker = true →
          logEntry score domain raw
            = some (domain ++ " - (Punycode: ".toList ++ raw ++ ")".toList))
      ∧ (56 ≤ score → containsStr raw xnMarker = false →
          logEntry score domain raw = some domain) := by
  intro score domain raw
  have hxn : (xnMarker : List Char) ≠ [] := by decide
  have hiff := matchesCount_pos_iff hxn raw
  refine ⟨?_, ?_, ?_, ?_, ?_, ?_, ?_⟩
  · unfold reportTier
    split_ifs <;> simp <;> omega
  · unfold reportTier
    split_ifs <;> simp <;> omega
  · unfold reportTier
    split_ifs <;> simp <;> omega
  · unfold reportTier
    split_ifs <;> simp <;> omega
  · unfold logEntry
    split_ifs <;> simp <;> omega
  · intro h hc
    unfold logEntry
    rw [if_pos h, if_pos (hiff.mpr hc)]
  · intro h hc
    unfold logEntry
    rw [if_pos h, if_neg (fun hpos => absurd (hiff.mp hpos) (by simp [hc]))]

/-- C5 (witness): at score 60, the log entry carries the punycode annotation
for a raw domain containing xn-- and only the domain otherwise. -/
theorem claim_report_thresholds_witness :
    logEntry 60 "a".toList "xn--b".toList
      = some ("a".toList ++ " - (Punycode: ".toList ++ "xn--b".toList ++ ")".toList)
    ∧ logEntry 60 "a".toList "b".toList = some "a".toList :=
  ⟨(claim_report_thresholds 60 "a".toList "xn--b".toList).2.2.2.2.2.1
      (by decide) (by decide),
    (claim_report_thresholds 60 "a".toList "b".toList).2.2.2.2.2.2
      (by decide) (by decide)⟩

/-- C6 (counterexample): wildcard stripping of the domain that starts with
the wildcard marker is a global replace: on the input with a second inner
occurrence it yields ab, not the a followed by the untouched inner marker
and b that the claim predicts. -/
theorem claim_wildcard_strip_counterexample :
    stripWildcard "*.a*.b".toList = "ab".toList
    ∧ "ab".toList ≠ "a*.b".toList := by
  refine ⟨by decide, by decide⟩

/-- C6 (amended): for every raw domain that starts with the wildcard marker,
stripping is Rust str::replace of every non-overlapping occurrence; when the
marker does not occur in the remainder after the leading occurrence, this
removes exactly the leading marker. -/
theorem claim_wildcard_strip_amended :
    ∀ d : List Char, leadsWith starDot d = true →
      stripWildcard d = replaceAll starDot [] d
      ∧ (containsStr (d.drop 2) starDot = false → stripWildcard d = d.drop 2) := by
  intro d h
  have hstar : (starDot : List Char) ≠ [] := by decide
  have hgoal : stripWildcard d = replaceAll starDot [] d := by
    simp [stripWildcard, h]
  refine ⟨hgoal, ?_⟩
  intro hnc
  have hd : d = starDot ++ d.drop 2 := by
    have h2 := leadsWith_append h
    have hlen : (starDot : List Char).length = 2 := rfl
    rw [hlen] at h2
    exact h2
  rw [hgoal]
  conv_lhs => rw [hd]
  rw [replaceAll_pos [] hstar (leadsWith_append_self starDot (d.drop 2))]
  have hdrop : ((starDot : List Char) ++ d.drop 2).drop starDot.length = d.drop 2 :=
    List.drop_left starDot (d.drop 2)
  rw [hdrop, List.nil_append]
  exact replaceAll_of_not_contains [] hnc

/-- C6 (witness for the amended theorem): a wildcard domain with no inner
marker loses exactly the leading marker. -/
theorem claim_wildcard_strip_amended_witness :
    stripWildcard "*.mail.example.com".toList = "mail.example.com".toList :=
  (claim_wildcard_strip_amended "*.mail.example.com".toList (by decide)).2 (by decide)

/-- C7: at a label whose xn-- remainder fails punycode decoding, the
program's normalizer (which unwraps the decoder result) aborts the whole
domain, whereas the recovery the specification prescribes leaves the label
unchanged and continues; evaluated with a decoder failing on that remainder. -/
theorem claim_punycode_decode_failure :
    punycode (fun _ => none) "xn--0.com".toList = none
    ∧ punycodeRecovering (fun _ => none) "xn--0.com".toList = "xn--0.com".toList := by
  refine ⟨by decide, by decide⟩

/-- C8 (counterexample): normalization is not idempotent, in two independent
ways. First, through the wildcard replace: the raw domain star-dot
star-star-dot-dot normalizes to the two characters star dot, which normalize
again to the empty string. Second, through punycode decoding: the raw domain
whose first label is xn--xxn--n--- has xn-- residue xn---, which RFC 3492
decodes to xn-- (the traceDecoder value), so the domain normalizes to
xn--.com, which normalizes again to .com. -/
theorem claim_normalize_idempotent_counterexample :
    (normalizeDomain (fun w => some w) "*.**..".toList = some "*.".toList
      ∧ normalizeDomain (fun w => some w) "*.".toList = some "".toList
      ∧ "*.".toList ≠ "".toList)
    ∧ (normalizeDomain traceDecoder "xn--xxn--n---.com".toList = some "xn--.com".toList
      ∧ normalizeDomain traceDecoder "xn--.com".toList = some ".com".toList
      ∧ "xn--.com".toList ≠ ".com".toList) := by
  refine ⟨⟨by decide, by decide, by decide⟩, ⟨by decide, by decide, by decide⟩⟩

/-- C8 (amended): normalization is idempotent on exactly the domains where a
second pass finds nothing new to act on: for every decoder, when the
normalized form does not itself start with the wildcard marker and none of
its labels starts with xn--, normalizing it again returns it unchanged.
Both provisos are necessary, by the two counterexample traces: the global
wildcard replace can emit a form that again starts with the wildcard marker,
and punycode decoding can emit a label that again starts with xn--. -/
theorem claim_normalize_idempotent_amended :
    ∀ (dec : List Char → Option (List Char)) (d dn : List Char),
      normalizeDomain dec d = some dn →
      leadsWith starDot dn = false →
      (∀ w ∈ splitOnDot dn, leadsWith xnMarker w = false) →
      normalizeDomain dec dn = some dn := by
  intro dec d dn _ hstar hxn
  have hstrip : stripWildcard dn = dn := by
    simp [stripWildcard, hstar]
  show punycode dec (stripWildcard dn) = some dn
  rw [hstrip]
  unfold punycode
  rw [decodeLabels_id dec hxn]
  exact congrArg some (joinDot_splitOnDot dn)

/-- C8 (witness for the amended theorem): a plain already-normalized domain,
with no wildcard marker and no xn-- label, normalizes to itself again. -/
theorem claim_normalize_idempotent_amended_witness :
    normalizeDomain (fun _ => none) "a.b".toList = some "a.b".toList := by
  apply claim_normalize_idempotent_amended (fun _ => none) "a.b".toList
  · decide
  · decide
  · decide

/-- C9: punycode normalization preserves the label count and decodes
label-by-label (never across dot boundaries), for every decoder whose
outputs contain no dot — which RFC 3492 decoding of a dot-free label
guarantees, since inserted code points are at least U+0080. -/
theorem claim_label_count_preserved :
    ∀ (dec : List Char → Option (List Char)) (d dn : List Char),
      (∀ w out, dec w = some out → '.' ∉ out) →
      punycode dec d = some dn →
      (splitOnDot dn).length = (splitOnDot d).length
      ∧ List.Forall₂
          (fun w r =>
            (if leadsWith xnMarker w then dec (replaceAll xnMarker [] w) else some w)
              = some r)
          (splitOnDot d) (splitOnDot dn) := by
  intro dec d dn hdec h
  obtain ⟨rs, hrs, hdn⟩ := punycode_eq_some h
  have hdots : ∀ r ∈ rs, '.' ∉ r :=
    decodeLabels_dots hdec hrs (mem_splitOnDot_not_dot d)
  have hf := decodeLabels_forall₂ hrs
  have hne : rs ≠ [] := by
    intro h0
    subst h0
    exact splitOnDot_ne_nil d (List.forall₂_nil_right_iff.mp hf)
  have hsplit : splitOnDot dn = rs := by
    rw [← hdn]
    exact splitOnDot_joinDot rs hne hdots
  constructor
  · rw [hsplit]
    exact (List.Forall₂.length_eq hf).symm
  · rw [hsplit]
    exact hf

/-- C9 (witness): with a decoder sending every label to q, the domain with
one xn-- label keeps its two labels. -/
theorem claim_label_count_preserved_witness :
    (splitOnDot "a.q".toList).length = (splitOnDot "a.xn--b".toList).length :=
  (claim_label_count_preserved (fun _ => some "q".toList) "a.xn--b".toList "a.q".toList
    (by
      intro w out hw
      injection hw with hq
      rw [← hq]
      decide)
    (by decide)).1

/-- C10: when the normalized domain equals its registrable root, the
subdomain computed by substring removal is empty, the subdomain heuristics
run on the empty first label, and every keyword of length one is at
Damerau-Levenshtein distance one from it, so the subdomain fuzzy heuristic
contributes its 40 even though there is no subdomain. -/
theorem claim_empty_subdomain_fuzzy :
    ∀ (reg k : List Char) (kws : List (List Char)),
      reg ≠ [] → k ∈ kws → k.length = 1 →
      replaceAll reg [] reg = []
      ∧ damerau_levenshtein [] k = 1
      ∧ calc_string_edit_distance [] k = 40
      ∧ 40 ≤ decomposedScore reg reg kws := by
  intro reg k kws h1 h2 h3
  have e0 : replaceAll reg [] reg = [] := replaceAll_self_nil h1
  have e1 : damerau_levenshtein [] k = 1 := by
    simp [damerau_levenshtein, h3]
  have e2 : calc_string_edit_distance [] k = 40 := by
    simp [calc_string_edit_distance, e1]
  refine ⟨e0, e1, e2, ?_⟩
  have h4 : 40 ≤ keywordContribution ((splitOnDot reg).headD []) [] k := by
    unfold keywordContribution
    rw [e2]
    exact Nat.le_add_left 40 _
  have h5 : keywordContribution ((splitOnDot reg).headD []) [] k
      ≤ keywordScore ((splitOnDot reg).headD []) [] kws := by
    apply List.single_le_sum (fun x _ => Nat.zero_le x)
    exact List.mem_map_of_mem _ h2
  simp only [decomposedScore]
  rw [e0]
  have e3 : (splitOnDot ([] : List Char)).headD ([] : List Char) = [] := rfl
  rw [e3]
  exact le_trans (le_trans h4 h5) (Nat.le_add_right _ _)

/-- C10 (witness): registrable root ab with the singleton keyword set of the
one-character keyword a scores at least 40 from the empty subdomain label. -/
theorem claim_empty_subdomain_fuzzy_witness :
    replaceAll "ab".toList [] "ab".toList = []
    ∧ damerau_levenshtein [] "a".toList = 1
    ∧ calc_string_edit_distance [] "a".toList = 40
    ∧ 40 ≤ decomposedScore "ab".toList "ab".toList ["a".toList] :=
  claim_empty_subdomain_fuzzy "ab".toList "a".toList ["a".toList]
    (by decide) (by decide) (by decide)

end Nettfiske
